import Mathlib

/-!
# Verification of the NpsAnalyzer reference-resolution engine

Shallow embedding of the stack-trace reference-resolution components of the
NpsAnalyzer repository, together with theorems settling the specification
claims about them.  Each definition is translated from the Python source file
named in its doc comment.  Regular-expression scanning of Java source text
(the `re` module) is embedded as follows: patterns simple enough to describe
exactly (the parser patterns) are implemented character-by-character with
Python semantics (`\w`/`\s` restricted to ASCII, `.` never matching a newline,
`$` also matching before a single trailing newline); the two large
method-declaration patterns of the extractors are abstracted by taking the
per-pattern `finditer` match lists (each in ascending match-position order, as
`finditer` guarantees) as explicit arguments.  The filesystem is embedded as a
finite list of directories (in `os.walk` visitation order) with their file
name listings.  `datetime` instants are embedded as natural numbers.
-/

namespace NpsAnalyzer

/-! ## ASCII character classes used by the Python regexes

`\w` is modelled as ASCII word characters (the identifiers handled by the
tool are Java identifiers); `\s` is Python's six ASCII whitespace characters.
-/

/-- The regex class A-Z. -/
def isUpperA (c : Char) : Bool := 'A' ≤ c && c ≤ 'Z'

/-- The regex class a-z. -/
def isLowerA (c : Char) : Bool := 'a' ≤ c && c ≤ 'z'

/-- The regex class 0-9. -/
def isDigitA (c : Char) : Bool := '0' ≤ c && c ≤ '9'

/-- The regex class a-zA-Z0-9_, which is also ASCII `\w`. -/
def isWordA (c : Char) : Bool := isUpperA c || isLowerA c || isDigitA c || c == '_'

/-- Python `\s` (ASCII part): space, tab, newline, carriage return,
vertical tab, form feed. -/
def isPySpace (c : Char) : Bool :=
  c == ' ' || c == '\t' || c == '\n' || c == '\r' || c == '\x0b' || c == '\x0c'

/-- Python `str.split(sep)` for a one-character separator, on character
lists: splitting never yields the empty list and keeps empty pieces, e.g.
splitting a..b at the dots gives a, an empty piece, and b. -/
def splitOnCharL (sep : Char) : List Char → List (List Char)
  | [] => [[]]
  | c :: cs =>
    let r := splitOnCharL sep cs
    if c == sep then [] :: r
    else
      match r with
      | [] => [[c]]
      | h :: t => (c :: h) :: t

/-- Python `str.split(sep)` for a one-character separator. -/
def splitOnChar (sep : Char) (s : String) : List String :=
  (splitOnCharL sep s.data).map String.mk

/-- Python `str.lower()` (ASCII range, the one relevant to Java
identifiers). -/
def strLower (s : String) : String :=
  String.mk (s.data.map Char.toLower)

/-! ## Enhanced method extractor (src/stack_trace_analyzer/enhanced_method_extractor.py) -/

/-- `MethodInfo` from enhanced_method_extractor.py (lines 20-38): name,
1-indexed start/end lines, matched signature text and brace-balanced body. -/
structure MethodInfo where
  name : String
  lineStart : Nat
  lineEnd : Nat
  signature : String
  body : String
  deriving Repr, DecidableEq

/-- The deduplication loop at the end of
`EnhancedMethodExtractor._find_all_methods` (lines 201-211): keep the first
`MethodInfo` for each (name, start line) pair, preserving order. -/
def dedupMethods : List MethodInfo → List (String × Nat) → List MethodInfo
  | [], _ => []
  | m :: ms, seen =>
    if (m.name, m.lineStart) ∈ seen then dedupMethods ms seen
    else m :: dedupMethods ms ((m.name, m.lineStart) :: seen)

/-- `EnhancedMethodExtractor._find_all_methods` (lines 171-211).  The function
iterates `pattern.finditer(content)` for each of the two compiled method
patterns, building a `MethodInfo` per match, and then deduplicates by
(name, start line).  The regex engine is abstracted: `patternMatches` is the
list, per pattern, of the `MethodInfo` records the matches of that pattern
yield, each inner list in ascending match-position order as `finditer`
produces them.  The resulting method list is therefore pattern-major: all of
the first pattern's matches precede all of the second pattern's. -/
def findAllMethods (patternMatches : List (List MethodInfo)) : List MethodInfo :=
  dedupMethods patternMatches.flatten []

/-- `MethodExtractionResult` from enhanced_method_extractor.py (lines 40-62).
Optional fields default to `none` / `[]` exactly as in `__init__`;
`methodList` holds the (name, line) pairs of `self.method_list`. -/
structure MethodExtractionResult where
  status : String := "failure"
  filePath : Option String := none
  className : Option String := none
  methodName : Option String := none
  methodCodeSnippet : Option String := none
  lineRange : Option (Nat × Nat) := none
  methodCandidates : List MethodInfo := []
  fileContents : Option String := none
  methodList : List (String × Nat) := []
  reason : Option String := none
  searchedPaths : List String := []
  suggestions : List String := []
  deriving Repr, DecidableEq

/-- The fresh result object built at the top of
`EnhancedMethodExtractor.extract` (lines 143-147). -/
def mkExtractionResult (filePath className : Option String)
    (methodName : Option String) : MethodExtractionResult :=
  { filePath := filePath, className := className, methodName := methodName }

/-- `EnhancedMethodExtractor._extract_specific_method` (lines 239-278):
filter the discovered methods by exact name equality; no match leaves the
default failure status and records reason plus the method catalogue; one
match succeeds with its body and line range; several matches succeed with the
first match selected and all matches as candidates. -/
def extractSpecificMethod (methodName : String) (allMethods : List MethodInfo)
    (result : MethodExtractionResult) : MethodExtractionResult :=
  let matching := allMethods.filter (fun m => m.name == methodName)
  match matching with
  | [] =>
    { result with
      reason := some "method_not_found"
      suggestions := ["Check method name spelling",
                      "Choose from available methods",
                      "Verify the method exists in this class"]
      methodList := allMethods.map (fun m => (m.name, m.lineStart)) }
  | [m] =>
    { result with
      status := "success"
      methodCodeSnippet := some m.body
      lineRange := some (m.lineStart, m.lineEnd) }
  | m :: _ :: _ =>
    { result with
      status := "success"
      methodCandidates := matching
      methodCodeSnippet := some m.body
      lineRange := some (m.lineStart, m.lineEnd) }

/-- `EnhancedMethodExtractor._provide_file_level_analysis` (lines 280-304):
file-level success carrying the method catalogue, method name cleared. -/
def provideFileLevelAnalysis (allMethods : List MethodInfo)
    (result : MethodExtractionResult) : MethodExtractionResult :=
  { result with
    status := "success"
    methodName := none
    methodList := allMethods.map (fun m => (m.name, m.lineStart)) }

/-- The result envelope dictionary produced by
`MethodExtractionResult.to_dict` and by the orchestrator's failure builders.
A field of value `none` models a key that is absent from the dictionary
(for `cls`, `method` and `file` the key is always present and `none` models a
JSON null value, which is how the code uses them). -/
structure Envelope where
  status : String
  file : Option String := none
  cls : Option String := none
  method : Option String := none
  methodCodeSnippet : Option String := none
  lineRange : Option (Nat × Nat) := none
  methodCandidates : List MethodInfo := []
  fileContents : Option String := none
  methodList : Option (List (String × Nat)) := none
  reason : Option String := none
  searchedPaths : Option (List String) := none
  suggestions : Option (List String) := none
  deriving Repr, DecidableEq

/-- `MethodExtractionResult.to_dict` (lines 64-91).  On success with a method
name the envelope carries the snippet, line range and (when non-empty) the
candidates; on file-level success it carries the catalogue (and contents when
present); on failure it carries reason, searched paths and suggestions — and,
crucially, not the method catalogue. -/
def resultToDict (r : MethodExtractionResult) : Envelope :=
  if r.status == "success" then
    match r.methodName with
    | some _ =>
      { status := r.status, file := r.filePath, cls := r.className,
        method := r.methodName,
        methodCodeSnippet := r.methodCodeSnippet, lineRange := r.lineRange,
        methodCandidates := r.methodCandidates }
    | none =>
      { status := r.status, file := r.filePath, cls := r.className,
        method := none,
        fileContents := r.fileContents, methodList := some r.methodList }
  else
    { status := r.status, file := r.filePath, cls := r.className,
      method := r.methodName,
      reason := r.reason, searchedPaths := some r.searchedPaths,
      suggestions := some r.suggestions }

/-! ## Robust analysis system (src/stack_trace_analyzer/robust_analysis_system.py) -/

/-- The loop over `path.parts` in
`RobustStackTraceAnalysisSystem._get_relative_path` (lines 183-194):
everything after the first component that is src, java, main or test,
joined with slashes. -/
def relAux : List String → Option String
  | [] => none
  | p :: rest =>
    if p == "src" || p == "java" || p == "main" || p == "test" then
      some (String.intercalate "/" rest)
    else relAux rest

/-- The fallback and dispatch of `_get_relative_path`. -/
def getRelativePath (parts : List String) : String :=
  match relAux parts with
  | some s => s
  | none => (parts.getLast?).getD ""

/-- `RobustStackTraceAnalysisSystem._create_final_result` (lines 169-181):
the envelope is the extraction result's dictionary, with the file key
overwritten by the relative display path when the file search produced a
path. -/
def createFinalResult (extractionResult : MethodExtractionResult)
    (fileResultPath : Option (List String)) : Envelope :=
  let e := resultToDict extractionResult
  match fileResultPath with
  | some p => { e with file := some (getRelativePath p) }
  | none => e

/-- `RobustStackTraceAnalysisSystem._create_file_not_found_result`
(lines 210-226): the failure envelope produced when the file finder fails,
with reason file_not_found. -/
def createFileNotFoundResult (classFqn : String) (method : Option String)
    (searchedPaths : List String) : Envelope :=
  { status := "failure",
    reason := some "file_not_found",
    cls := some classFqn,
    method := method,
    searchedPaths := some searchedPaths,
    suggestions := some ["Verify class name spelling",
                         "Check repository path",
                         "Provide explicit file path",
                         "Check if file exists in repository"] }

/-! ## Enhanced extraction engine (src/stack_trace_analyzer/enhanced_extractor.py) -/

/-- `MethodSignature` from enhanced_extractor.py (lines 23-45). -/
structure MethodSignature where
  name : String
  returnType : String
  parameters : List String
  modifiers : List String
  startLine : Nat
  endLine : Nat
  fullSignature : String
  methodBody : String
  deriving Repr, DecidableEq

/-- Python's contiguous-substring containment test `a in b` on character
lists (an empty needle is contained in everything). -/
def containsSub (needle : List Char) : List Char → Bool
  | [] => needle.isEmpty
  | c :: rest => needle.isPrefixOf (c :: rest) || containsSub needle rest

/-- Case-insensitive name equality, `method_sig.name.lower() == target.lower()`. -/
def ciNameMatch (target : String) (m : MethodSignature) : Bool :=
  strLower m.name == strLower target

/-- Substring containment, `target.lower() in method_sig.name.lower()`. -/
def substrNameMatch (target : String) (m : MethodSignature) : Bool :=
  containsSub (strLower target).data (strLower m.name).data

/-- `EnhancedMethodExtractor._find_specific_method` of enhanced_extractor.py
(lines 302-319): try exact name equality, then case-insensitive equality,
then substring containment, returning the first method of the first tier that
matches.  The three `self._find_all_methods(lines)` scans all return the same
list, abstracted here as the `methods` argument. -/
def findSpecificMethod (methods : List MethodSignature)
    (targetMethod : String) : Option MethodSignature :=
  match methods.find? (fun m => m.name == targetMethod) with
  | some m => some m
  | none =>
    match methods.find? (ciNameMatch targetMethod) with
    | some m => some m
    | none => methods.find? (substrNameMatch targetMethod)

/-! ## Deterministic locator (src/stack_trace_analyzer/stacktrace_locator.py)

The locator's token-classification regexes are anchored with `$`, which in
Python also matches just before a single trailing newline; the helper
`matchTrailNL` reproduces that.  The character classes of these patterns
never match a newline, so no other newline subtlety arises.
-/

/-- Python `$`-anchoring on character lists: the body pattern must match
the whole text, or the whole text minus one trailing newline. -/
def matchTrailNL (core : List Char → Bool) (d : List Char) : Bool :=
  core d || (d.getLast? == some '\n' && core d.dropLast)

/-- The class_token regex `[A-Z][a-zA-Z0-9_]*(\$[A-Z][a-zA-Z0-9_]*)*` as a
character scan: the flag records whether the scanner still expects the
uppercase head of a (first or post-`$`) segment. -/
def classTokAux : List Char → Bool → Bool
  | [], expectHead => !expectHead
  | c :: cs, true => isUpperA c && classTokAux cs false
  | c :: cs, false =>
    if c == '$' then classTokAux cs true
    else isWordA c && classTokAux cs false

/-- Whole-text match of the class_token regex. -/
def looksLikeClassCore (d : List Char) : Bool :=
  classTokAux d true

/-- `StackTraceLocator._looks_like_class` (lines 210-212). -/
def looksLikeClass (t : String) : Bool :=
  matchTrailNL looksLikeClassCore t.data

/-- First alternative of the method_token regex: `[a-z][a-zA-Z0-9_]*`. -/
def lowerIdentCore (d : List Char) : Bool :=
  match d with
  | [] => false
  | c :: cs => isLowerA c && cs.all isWordA

/-- Second alternative of the method_token regex: `.*\(\)` where `.` cannot
match a newline. -/
def parensEndCore (d : List Char) : Bool :=
  ['(', ')'].isSuffixOf d && d.all (fun c => !(c == '\n'))

/-- `StackTraceLocator._looks_like_method` (lines 214-216), regex
`^[a-z][a-zA-Z0-9_]*$|^.*\(\)$`. -/
def looksLikeMethod (t : String) : Bool :=
  matchTrailNL lowerIdentCore t.data || matchTrailNL parensEndCore t.data

/-- `StackTraceLocator._clean_method_name` (lines 218-223), regex
`(.+)\(\)$` via `re.match`: strip a trailing `()` (the captured group may
not contain a newline and must be non-empty; `$` may sit before one final
trailing newline, in which case that newline is stripped as well). -/
def cleanMethodName (m : String) : String :=
  let d := m.data
  if 3 ≤ d.length && ['(', ')'].isSuffixOf d
      && (d.dropLast.dropLast).all (fun c => !(c == '\n')) then
    String.mk (d.dropLast.dropLast)
  else if 4 ≤ d.length && ['(', ')', '\n'].isSuffixOf d
      && (d.dropLast.dropLast.dropLast).all (fun c => !(c == '\n')) then
    String.mk (d.dropLast.dropLast.dropLast)
  else m

/-- Python `'.'.join(tokens)`. -/
def joinDots : List String → String
  | [] => ""
  | [t] => t
  | t :: ts => t ++ "." ++ joinDots ts

/-- `StackTraceLocator._parse_dot_notation` (lines 163-208), returning
(class_fqn, method).  The is_explicit_path and explicit_path components of
the Python 4-tuple are the constants False and None on every path of this
function and are omitted.  Split on dots; a single token is returned whole;
otherwise the first class-looking token ends the class FQN and the remaining
tokens form the method; with no class-looking token, a method-looking last
token is split off, else the whole string is the class FQN. -/
def parseDotNotation (normalized : String) : String × Option String :=
  let tokens := splitOnChar '.' normalized
  if tokens.length < 2 then
    ((tokens.head?).getD "", none)
  else
    match List.findIdx? looksLikeClass tokens with
    | none =>
      if looksLikeMethod ((tokens.getLast?).getD "") then
        (joinDots tokens.dropLast,
         some (cleanMethodName ((tokens.getLast?).getD "")))
      else
        (normalized, none)
    | some classIndex =>
      let classFqn := joinDots (tokens.take (classIndex + 1))
      if classIndex + 1 < tokens.length then
        (classFqn,
         some (cleanMethodName (joinDots (tokens.drop (classIndex + 1)))))
      else
        (classFqn, none)

/-! ### Filesystem model

A filesystem is the finite list of existing directories, each with its file
name listing, given in the order `os.walk` visits them from the repository
root.  Paths are lists of components (`os.path.join` adds one component). -/

/-- Directories (in walk order) paired with the names of the files they
contain (in listing order). -/
structure FS where
  entries : List (List String × List String)
  deriving Repr

/-- `os.path.isdir`. -/
def fsIsDir (fs : FS) (p : List String) : Bool :=
  fs.entries.any (fun e => e.1 == p)

/-- A path denotes an existing regular file: its parent directory exists and
lists its final component. -/
def fsHasFile (fs : FS) (p : List String) : Bool :=
  fs.entries.any (fun e => e.1 == p.dropLast && e.2.contains ((p.getLast?).getD ""))

/-- `os.path.exists`. -/
def fsExists (fs : FS) (p : List String) : Bool :=
  fsIsDir fs p || fsHasFile fs p

/-- The result dictionaries returned by the locator's file-location helpers
(`success`, optional `file_path`, `how_found`, `reason`, `searched_paths`,
`candidates`). -/
structure LocateFileResult where
  success : Bool
  filePath : Option (List String) := none
  howFound : Option String := none
  reason : Option String := none
  searchedPaths : List (List String) := []
  candidates : List (List String) := []
  deriving Repr, DecidableEq

/-- The token loop of `StackTraceLocator._incremental_traversal`
(lines 277-306): a class-looking token probes `<token>.java` in the current
directory (success with how_found exact_fqn when it exists, otherwise keep
scanning tokens for an inner-class case); a package-looking token descends
into the subdirectory, and a missing subdirectory stops the strategy. -/
def incrementalAux (fs : FS) :
    List String → List String → List (List String) → LocateFileResult
  | [], _, searched => { success := false, searchedPaths := searched }
  | token :: rest, current, searched =>
    if looksLikeClass token then
      let candidateFile := current ++ [token ++ ".java"]
      if fsExists fs candidateFile then
        { success := true, filePath := some candidateFile,
          howFound := some "exact_fqn",
          searchedPaths := searched ++ [candidateFile] }
      else
        incrementalAux fs rest current (searched ++ [candidateFile])
    else
      let nextPath := current ++ [token]
      if fsIsDir fs nextPath then
        incrementalAux fs rest nextPath (searched ++ [nextPath])
      else
        { success := false, searchedPaths := searched ++ [nextPath] }

/-- `StackTraceLocator._incremental_traversal` (lines 263-313). -/
def incrementalTraversal (fs : FS) (classFqn : String)
    (repoRoot : List String) : LocateFileResult :=
  incrementalAux fs (splitOnChar '.' classFqn) repoRoot [repoRoot]

/-- The `os.walk` loop of `StackTraceLocator._fallback_search`
(lines 334-360): skip directories deeper than max_depth 8 (clearing `dirs`
prunes only still-deeper directories, which the depth test already skips);
an exact-case file name match returns how_found fuzzy at once;
case-insensitive (but not exact) matches accumulate as candidates. -/
def fallbackWalk (fs : FS) (repoRootLen : Nat) (targetFilename : String)
    (prevSearched : List (List String)) :
    List (List String × List String) → List (List String) → LocateFileResult
  | [], candidates =>
    match candidates with
    | [] =>
      { success := false, reason := some "file_not_found",
        searchedPaths := prevSearched, candidates := [] }
    | best :: _ =>
      { success := true, filePath := some best,
        howFound := some "case_insensitive",
        searchedPaths := prevSearched, candidates := candidates }
  | (dir, files) :: rest, candidates =>
    if dir.length - repoRootLen > 8 then
      fallbackWalk fs repoRootLen targetFilename prevSearched rest candidates
    else if files.contains targetFilename then
      { success := true, filePath := some (dir ++ [targetFilename]),
        howFound := some "fuzzy",
        searchedPaths := prevSearched,
        candidates := candidates ++ [dir ++ [targetFilename]] }
    else
      fallbackWalk fs repoRootLen targetFilename prevSearched rest
        (candidates ++
          (files.filter (fun f =>
            strLower f == strLower targetFilename && !(f == targetFilename))).map
            (fun f => dir ++ [f]))

/-- `StackTraceLocator._fallback_search` (lines 315-381): fuzzy basename
search for `<ClassName>.java` (last FQN segment, `$`-suffix stripped). -/
def fallbackSearch (fs : FS) (classFqn : String) (repoRoot : List String)
    (previousSearched : List (List String)) : LocateFileResult :=
  let className0 := ((splitOnChar '.' classFqn).getLast?).getD ""
  let className :=
    if className0.data.contains '$' then ((splitOnChar '$' className0).head?).getD ""
    else className0
  fallbackWalk fs repoRoot.length (className ++ ".java") previousSearched
    fs.entries []

/-- `StackTraceLocator._locate_explicit_path` (lines 244-261). -/
def locateExplicitPath (fs : FS) (explicitPath : List String) :
    LocateFileResult :=
  if fsExists fs explicitPath then
    { success := true, filePath := some explicitPath,
      howFound := some "explicit_path", searchedPaths := [explicitPath] }
  else
    { success := false, reason := some "explicit_path_not_found",
      searchedPaths := [explicitPath], candidates := [] }

/-- `StackTraceLocator._locate_file` (lines 225-242): explicit paths are
checked directly; otherwise incremental traversal runs first and the fuzzy
fallback only on its failure, receiving the paths already probed. -/
def locateFile (fs : FS) (classFqn : String) (repoRoot : List String)
    (isExplicitPath : Bool) (explicitPath : Option (List String)) :
    LocateFileResult :=
  if isExplicitPath then
    locateExplicitPath fs (explicitPath.getD [])
  else
    let result := incrementalTraversal fs classFqn repoRoot
    if result.success then result
    else fallbackSearch fs classFqn repoRoot result.searchedPaths

/-! ## Enhanced repository file finder
(src/stack_trace_analyzer/enhanced_repo_file_finder.py)

Paths are component lists as in the locator model.  An absolute path is
represented with a leading empty component (mirroring a leading slash). -/

/-- `FileSearchResult` (lines 21-39); `success` is the derived
`file_path is not None`. -/
structure FileSearchResult where
  filePath : Option (List String) := none
  strategy : String := "none"
  searchedPaths : List (List String) := []
  candidates : List (List String) := []
  deriving Repr, DecidableEq

/-- `self.success = file_path is not None`. -/
def FileSearchResult.success (r : FileSearchResult) : Bool :=
  r.filePath.isSome

/-- `self.common_src_dirs` (lines 49-56), each split into components. -/
def commonSrcDirs : List (List String) :=
  [["src", "main", "java"], ["src", "test", "java"], ["src", "java"],
   ["src"], ["test", "java"], ["tests", "src"]]

/-- `Path.is_absolute` in the component-list model. -/
def isAbsolutePath (p : List String) : Bool :=
  (p.head?).getD " " == ""

/-- `EnhancedRepositoryFileFinder._search_explicit_path` (lines 97-125).
`repo_path / explicit_path` follows pathlib: an absolute right operand
replaces the left one. -/
def searchExplicitPath (fs : FS) (explicitPath repoPath : List String) :
    FileSearchResult :=
  if isAbsolutePath explicitPath && fsExists fs explicitPath then
    { filePath := some explicitPath, strategy := "explicit_path_absolute",
      searchedPaths := [explicitPath] }
  else
    let relativeFile :=
      if isAbsolutePath explicitPath then explicitPath
      else repoPath ++ explicitPath
    if fsExists fs relativeFile then
      { filePath := some relativeFile, strategy := "explicit_path_relative",
        searchedPaths := [relativeFile] }
    else
      { strategy := "explicit_path_not_found",
        searchedPaths := [explicitPath, relativeFile] }

/-- The source-directory probe loop of `_search_by_fqn` (lines 150-160). -/
def srcDirLoop (fs : FS) (repoPath relativePath : List String) :
    List (List String) → List (List String) → FileSearchResult
  | [], searched => { strategy := "exact_fqn_not_found", searchedPaths := searched }
  | srcDir :: rest, searched =>
    let srcPath := repoPath ++ srcDir ++ relativePath
    if fsExists fs srcPath then
      { filePath := some srcPath, strategy := "exact_fqn_with_src",
        searchedPaths := searched ++ [srcPath] }
    else
      srcDirLoop fs repoPath relativePath rest (searched ++ [srcPath])

/-- `EnhancedRepositoryFileFinder._search_by_fqn` (lines 127-166): the FQN
(inner-class suffix stripped) becomes a relative path, probed at the repo
root and then under each conventional source directory. -/
def searchByFqn (fs : FS) (classFqn : String) (repoPath : List String) :
    FileSearchResult :=
  let baseClass := ((splitOnChar '$' classFqn).head?).getD ""
  let parts := splitOnChar '.' baseClass
  let relativePath := parts.dropLast ++ [((parts.getLast?).getD "") ++ ".java"]
  let exactPath := repoPath ++ relativePath
  if fsExists fs exactPath then
    { filePath := some exactPath, strategy := "exact_fqn",
      searchedPaths := [exactPath] }
  else
    srcDirLoop fs repoPath relativePath commonSrcDirs [exactPath]

/-- The per-directory file loop of `_fuzzy_search_by_class_name`
(lines 188-201): collect case-insensitive name matches as candidates and
return at once on an exact-case match. -/
def fuzzyInner (dir : List String) (target : String) :
    List String → List (List String) → Option (List String) × List (List String)
  | [], candidates => (none, candidates)
  | f :: rest, candidates =>
    if strLower f == strLower target then
      let candidates' := candidates ++ [dir ++ [f]]
      if f == target then (some (dir ++ [f]), candidates')
      else fuzzyInner dir target rest candidates'
    else fuzzyInner dir target rest candidates

/-- The `os.walk` loop of `_fuzzy_search_by_class_name` (lines 182-212),
with the same depth-8 bound as the locator's fallback. -/
def fuzzyOuter (fs : FS) (repoPathLen : Nat) (target : String)
    (repoPath : List String) :
    List (List String × List String) → List (List String) → FileSearchResult
  | [], candidates =>
    match candidates with
    | [] =>
      { strategy := "not_found", searchedPaths := [repoPath], candidates := [] }
    | best :: _ =>
      { filePath := some best, strategy := "fuzzy_case_insensitive",
        searchedPaths := [repoPath], candidates := candidates }
  | (dir, files) :: rest, candidates =>
    if dir.length - repoPathLen > 8 then
      fuzzyOuter fs repoPathLen target repoPath rest candidates
    else
      match fuzzyInner dir target files candidates with
      | (some p, candidates') =>
        { filePath := some p, strategy := "fuzzy_exact_case",
          searchedPaths := [repoPath], candidates := candidates' }
      | (none, candidates') =>
        fuzzyOuter fs repoPathLen target repoPath rest candidates'

/-- `EnhancedRepositoryFileFinder._fuzzy_search_by_class_name`
(lines 168-220). -/
def fuzzySearchByClassName (fs : FS) (classFqn : String)
    (repoPath : List String) : FileSearchResult :=
  let baseClass := ((splitOnChar '$' classFqn).head?).getD ""
  let className := ((splitOnChar '.' baseClass).getLast?).getD ""
  fuzzyOuter fs repoPath.length (className ++ ".java") repoPath fs.entries []

/-- `EnhancedRepositoryFileFinder.find_file` (lines 61-95): a missing
repository root fails at once with strategy error, before any strategy runs;
otherwise explicit path (when provided and non-empty), then exact-FQN
probing, then the fuzzy fallback. -/
def findFile (fs : FS) (classFqn : String) (repoRoot : List String)
    (explicitPath : Option (List String)) : FileSearchResult :=
  if !(fsExists fs repoRoot) then
    { strategy := "error", searchedPaths := [repoRoot] }
  else
    match explicitPath with
    | some p =>
      if !p.isEmpty then searchExplicitPath fs p repoRoot
      else
        let fqnResult := searchByFqn fs classFqn repoRoot
        if fqnResult.success then fqnResult
        else fuzzySearchByClassName fs classFqn repoRoot
    | none =>
      let fqnResult := searchByFqn fs classFqn repoRoot
      if fqnResult.success then fqnResult
      else fuzzySearchByClassName fs classFqn repoRoot

/-! ## Cache manager (src/stack_trace_analyzer/cache_manager.py)

`datetime` instants are naturals; `max_age` is the same unit.  Entry
payloads (`data`, a dictionary in Python) are an abstract type `δ`: the
`store_extracted_code` boundary receives `extracted_code.to_dict()` already
serialized, and the sha256 key generation of `_generate_key` is abstracted
by passing the key string itself.  The two on-disk JSON files plus metadata
written by `_save_cache` are modelled as one snapshot list `disk`. -/

/-- `CacheEntry` (lines 32-63). -/
structure CacheEntry (δ : Type) where
  key : String
  data : δ
  timestamp : Nat
  accessCount : Nat
  lastAccessed : Nat
  entryType : String
  deriving Repr, DecidableEq

/-- The in-memory cache dictionary with its configuration and the persisted
snapshot.  `memoryCache` is the dict in insertion order; dict keys are
unique, which theorems assume where needed. -/
structure CacheState (δ : Type) where
  maxAge : Nat
  maxEntries : Nat
  memoryCache : List (CacheEntry δ) := []
  disk : List (CacheEntry δ) := []
  deriving Repr, DecidableEq

/-- Python dict assignment `self.memory_cache[key] = entry`: overwrite in
place when the key exists, append otherwise. -/
def dictInsert {δ : Type} (l : List (CacheEntry δ)) (e : CacheEntry δ) :
    List (CacheEntry δ) :=
  if l.any (fun x => x.key == e.key) then
    l.map (fun x => if x.key == e.key then e else x)
  else l ++ [e]

/-- `StackTraceAnalyzerCache._save_cache` (lines 135-171): persist a full
snapshot of the in-memory cache. -/
def saveCache {δ : Type} (st : CacheState δ) : CacheState δ :=
  { st with disk := st.memoryCache }

/-- `StackTraceAnalyzerCache.store_extracted_code` (lines 173-200): insert a
fresh entry (access count 0, created and last-accessed now) and autosave on
every tenth entry; no eviction happens here. -/
def storeExtractedCode {δ : Type} (st : CacheState δ) (key : String)
    (data : δ) (now : Nat) : CacheState δ :=
  let entry : CacheEntry δ :=
    { key := key, data := data, timestamp := now, accessCount := 0,
      lastAccessed := now, entryType := "extracted_code" }
  let st' := { st with memoryCache := dictInsert st.memoryCache entry }
  if st'.memoryCache.length % 10 == 0 then saveCache st' else st'

/-- `StackTraceAnalyzerCache.get_extracted_code` (lines 202-236): a miss if
the key is absent; a fresh entry (now - created ≤ max_age) is a hit that
bumps the access count and last-accessed time and returns the stored data;
an expired entry is deleted on the spot and the call is a miss. -/
def getExtractedCode {δ : Type} (st : CacheState δ) (key : String)
    (now : Nat) : Option δ × CacheState δ :=
  match st.memoryCache.find? (fun e => e.key == key) with
  | none => (none, st)
  | some entry =>
    if now - entry.timestamp ≤ st.maxAge then
      (some entry.data,
       { st with
         memoryCache := st.memoryCache.map (fun e =>
           if e.key == key then
             { e with accessCount := e.accessCount + 1, lastAccessed := now }
           else e) })
    else
      (none,
       { st with memoryCache := st.memoryCache.eraseP (fun e => e.key == key) })

/-- The stable sort `sorted(self.memory_cache.items(), key=lambda x:
x[1].last_accessed)` of `cleanup_cache`, as a stable insertion sort. -/
def sortByLastAccessed {δ : Type} (l : List (CacheEntry δ)) :
    List (CacheEntry δ) :=
  List.insertionSort (fun a b => a.lastAccessed ≤ b.lastAccessed) l

/-- `StackTraceAnalyzerCache.cleanup_cache` (lines 301-332): drop expired
entries, then, when still over `max_entries`, delete the least-recently
accessed entries (the first `len - max_entries` of the stable sort by
last-accessed time) until exactly `max_entries` remain; persist a snapshot
when anything was removed. -/
def cleanupCache {δ : Type} (st : CacheState δ) (now : Nat) : CacheState δ :=
  let live := st.memoryCache.filter (fun e => decide (now - e.timestamp ≤ st.maxAge))
  let final :=
    if st.maxEntries < live.length then
      let sortedEntries := sortByLastAccessed live
      let keysToRemove :=
        (sortedEntries.take (live.length - st.maxEntries)).map (fun e => e.key)
      live.filter (fun e => !(keysToRemove.contains e.key))
    else live
  let removedCount := st.memoryCache.length - final.length
  let st' := { st with memoryCache := final }
  if 0 < removedCount then saveCache st' else st'

/-! ## Robust stack trace parser
(src/stack_trace_analyzer/robust_stack_trace_parser.py)

The parser works on character lists.  Its three anchored patterns use only
character classes that never match a newline; the cleaned input can never
end in a newline (leading/trailing whitespace is stripped and the
bracket-stripping rule only fires on newline-free text), so the
before-trailing-newline behaviour of `$` cannot fire for them and is not
modelled, except inside the stack-frame trailer where `\s*` and `$` can
still meet newlines. -/

/-- `StackTraceParseResult` (lines 24-40). -/
structure RTParseResult where
  classFqn : List Char
  method : Option (List Char) := none
  filePathProvided : Bool := false
  explicitPath : Option (List Char) := none
  deriving Repr, DecidableEq

/-- Python `str.strip()` (ASCII whitespace). -/
def trimL (l : List Char) : List Char :=
  ((l.dropWhile isPySpace).reverse.dropWhile isPySpace).reverse

/-- The parameterized-test rule of `_clean_input` (lines 100-111), regex
`(.+)\[.*\]$` via `re.match`: when the text ends in a bracketed suffix whose
opening bracket is not the first character, keep only the part before the
last opening bracket.  `.` matches no newline, so the rule only fires on
newline-free text (and the trailing-newline form of `$` cannot fire after
`strip()`). -/
def paramStripL (t : List Char) : List Char :=
  if t.getLast? == some ']' && t.all (fun c => !(c == '\n')) then
    match t.reverse.findIdx? (fun c => c == '[') with
    | some r =>
      let i := t.length - 1 - r
      if 1 ≤ i then t.take i else t
    | none => t
  else t

/-- `RobustStackTraceParser._clean_input` (lines 100-111). -/
def cleanInputL (l : List Char) : List Char :=
  paramStripL (trimL l)

/-- `self.file_path_pattern` (line 62), `^.*[/\\].*\.java$`: ends in .java
with a path separator somewhere before it; `.` excludes newlines. -/
def isFilePathL (t : List Char) : Bool :=
  ['.', 'j', 'a', 'v', 'a'].isSuffixOf t
    && (t.take (t.length - 5)).any (fun c => c == '/' || c == '\\')
    && t.all (fun c => !(c == '\n'))

/-- No `.` may follow a `$` (the class groups put all dots before the
optional inner-class dollar part). -/
def noDotAfterDollar : List Char → Bool → Bool
  | [], _ => true
  | ch :: rest, seenDollar =>
    if ch == '$' then noDotAfterDollar rest true
    else if ch == '.' && seenDollar then false
    else noDotAfterDollar rest seenDollar

/-- The class group `[\w.]+\$?[\w\$]*` of patterns 1 and 3: non-empty, first
character a word character or dot, all characters word/dot/dollar, and every
dot before every dollar. -/
def classOkI (c : List Char) : Bool :=
  match c with
  | [] => false
  | x :: _ =>
    (isWordA x || x == '.')
      && c.all (fun ch => isWordA ch || ch == '.' || ch == '$')
      && noDotAfterDollar c false

/-- The method group `[\w\$][\w\d_$]*` of pattern 1: non-empty over
word-or-dollar characters. -/
def methodOkI (m : List Char) : Bool :=
  !m.isEmpty && m.all (fun c => isWordA c || c == '$')

/-- Pattern 1 `intellij_format` (line 52),
`^(?P<class>[\w.]+\$?[\w\$]*)#(?P<method>[\w\$][\w\d_$]*)$`: exactly one
hash, a class group before it and a method group after it. -/
def intellijMatchL (t : List Char) : Option (List Char × List Char) :=
  let c := t.takeWhile (fun ch => !(ch == '#'))
  let m := (t.dropWhile (fun ch => !(ch == '#'))).drop 1
  if t.count '#' == 1 && classOkI c && methodOkI m then some (c, m) else none

/-- Tail of the stack-frame trailer after the literal at: must match
`\s*.*$`, i.e. after an optional run of whitespace the rest is newline-free,
save possibly one final trailing newline. -/
def tailRestOk (r : List Char) : Bool :=
  let body := if r.getLast? == some '\n' then r.dropLast else r
  (body.dropWhile isPySpace).all (fun c => !(c == '\n'))

/-- The optional trailer `(?:\s*at\s*.*)?$` of pattern 2 after the closing
parenthesis: nothing (or a lone trailing newline), or whitespace, the
literal at, and a `\s*.*$` tail. -/
def tailOkL (t4 : List Char) : Bool :=
  t4.isEmpty || t4 == ['\n'] ||
    (let s1 := t4.dropWhile isPySpace
     s1.take 2 == ['a', 't'] && tailRestOk (s1.drop 2))

/-- Pattern 2 `stack_frame` (line 55),
`^(?P<class>[\w.]+)\.(?P<method>\w+)\([^)]*\)(?:\s*at\s*.*)?$`: the prefix
before the first parenthesis consists of word/dot characters and splits at
its last dot into a non-empty class and a non-empty method; the
parenthesised argument list runs to the first closing parenthesis; the
trailer must be acceptable. -/
def stackFrameMatchL (t : List Char) : Option (List Char × List Char) :=
  let pre := t.takeWhile (fun c => isWordA c || c == '.')
  match t.drop pre.length with
  | '(' :: afterParen =>
    let q := afterParen.takeWhile (fun c => !(c == ')'))
    match afterParen.drop q.length with
    | ')' :: trailer =>
      if tailOkL trailer then
        let m := (pre.reverse.takeWhile (fun c => !(c == '.'))).reverse
        if !m.isEmpty && m.length + 2 ≤ pre.length then
          some (pre.take (pre.length - m.length - 1), m)
        else none
      else none
    | _ => none
  | _ => none

/-- Pattern 3 `class_only` (line 58), `^(?P<class>[\w.]+\$?[\w\$]*)$`: the
same language as the class group of pattern 1. -/
def classOnlyL (t : List Char) : Bool :=
  classOkI t

/-- `RobustStackTraceParser._parse_file_path` (lines 117-132): the class
name is the file's stem (POSIX name semantics: the part after the last
slash, minus a last-dot suffix when that dot is neither first nor last),
inner-class suffix stripped; the method is None. -/
def parseFilePathL (cleaned : List Char) : RTParseResult :=
  let filename := (cleaned.reverse.takeWhile (fun c => !(c == '/'))).reverse
  let sfxRev := filename.reverse.takeWhile (fun c => !(c == '.'))
  let dotIdx := filename.length - sfxRev.length - 1
  let stem :=
    if sfxRev.length < filename.length && 1 ≤ dotIdx && 1 ≤ sfxRev.length then
      filename.take dotIdx
    else filename
  { classFqn := stem.takeWhile (fun c => !(c == '$')),
    method := none, filePathProvided := true, explicitPath := some cleaned }

/-- `RobustStackTraceParser.parse` (lines 67-98): clean the input, detect an
explicit file path, then try the three patterns in dictionary order
(intellij_format, stack_frame, class_only); the fallback treats the whole
cleaned input as a class name with no method.  (The class_only branch and
the fallback build the same result; both are kept to mirror the source.) -/
def parseRobust (inputLine : List Char) : RTParseResult :=
  let cleaned := cleanInputL inputLine
  if isFilePathL cleaned then parseFilePathL cleaned
  else
    match intellijMatchL cleaned with
    | some (c, m) =>
      { classFqn := c, method := some m }
    | none =>
      match stackFrameMatchL cleaned with
      | some (c, m) =>
        { classFqn := c, method := some m }
      | none =>
        if classOnlyL cleaned then { classFqn := cleaned, method := none }
        else { classFqn := cleaned, method := none }

/-! ## Support definitions used in theorem statements -/

/-- The token has an uppercase ASCII first character (the claimed
class/package boundary criterion). -/
def headIsUpperA (t : String) : Bool :=
  match t.data with
  | [] => false
  | c :: _ => isUpperA c

/-- A plain ASCII identifier token: a letter followed by word characters. -/
def plainIdentTok (t : String) : Bool :=
  match t.data with
  | [] => false
  | c :: cs => (isUpperA c || isLowerA c) && cs.all isWordA

end NpsAnalyzer

namespace NpsAnalyzer

/-! ## Helper lemmas -/

theorem find?_eq_head?_filter {α : Type} (p : α → Bool) :
    ∀ l : List α, l.find? p = (l.filter p).head?
  | [] => rfl
  | a :: l => by
    by_cases h : p a = true
    · rw [List.find?_cons_of_pos _ h, List.filter_cons_of_pos h, List.head?_cons]
    · rw [List.find?_cons_of_neg _ h, List.filter_cons_of_neg h,
        find?_eq_head?_filter p l]

theorem findIdx?_congr {α : Type} {p q : α → Bool} :
    ∀ {l : List α}, (∀ x ∈ l, p x = q x) →
      List.findIdx? p l = List.findIdx? q l
  | [], _ => rfl
  | a :: l, h => by
    have ha : p a = q a := h a (by simp)
    have hl : List.findIdx? p l = List.findIdx? q l :=
      findIdx?_congr (fun x hx => h x (by simp [hx]))
    simp [List.findIdx?_cons, ha, hl]

/-! ## Claim C3 -/

/-- C3, counterexample.  The claim says every extract call with a requested
method name retries the filter case-insensitively and then by substring
containment before giving up.  `EnhancedMethodExtractor._extract_specific_method`
(enhanced_method_extractor.py lines 239-278), the extract path used by the
robust analysis system, filters by exact equality only: requesting FOO in a
file whose only method is foo fails there, while the separate
`_find_specific_method` of enhanced_extractor.py does find foo by its
case-insensitive tier on the same data. -/
theorem c3_counterexample :
    (extractSpecificMethod "FOO" [⟨"foo", 3, 5, "sigF", "bodyF"⟩]
      (mkExtractionResult (some "F.java") (some "pkg.F") (some "FOO"))).status
        = "failure" ∧
    findSpecificMethod [⟨"foo", "void", [], [], 3, 5, "sigF", "bodyF"⟩] "FOO"
        = some ⟨"foo", "void", [], [], 3, 5, "sigF", "bodyF"⟩ :=
  ⟨rfl, rfl⟩

/-- C3, amended: the three-tier filter (exact, then case-insensitive, then
substring containment, using the first non-empty tier) is implemented by
`_find_specific_method` of enhanced_extractor.py, which returns the first
method of the first non-empty tier; `EnhancedMethodExtractor.extract` of
enhanced_method_extractor.py filters by exact identifier equality only, with
no fallback tiers (an empty exact tier is immediately a failure). -/
theorem c3_find_specific_method_tiers :
    (∀ (methods : List MethodSignature) (target : String),
      findSpecificMethod methods target =
        (methods.filter (fun m => m.name == target) ++
         methods.filter (ciNameMatch target) ++
         methods.filter (substrNameMatch target)).head?) ∧
    (∀ (target : String) (methods : List MethodInfo) (fp cn : Option String),
      methods.filter (fun m => m.name == target) = [] →
      (extractSpecificMethod target methods
        (mkExtractionResult fp cn (some target))).status = "failure") := by
  constructor
  · intro methods target
    unfold findSpecificMethod
    rw [find?_eq_head?_filter, find?_eq_head?_filter, find?_eq_head?_filter]
    cases h1 : methods.filter (fun m => m.name == target) with
    | cons a l => simp
    | nil =>
      cases h2 : methods.filter (ciNameMatch target) with
      | cons a l => simp
      | nil => simp
  · intro target methods fp cn h
    simp only [extractSpecificMethod, h]
    rfl

/-- C3, witness for the amended theorem. -/
theorem c3_witness :
    (findSpecificMethod [⟨"bar", "void", [], [], 1, 2, "sigB", "bodyB"⟩] "zzz" =
      (([(⟨"bar", "void", [], [], 1, 2, "sigB", "bodyB"⟩ : MethodSignature)]).filter
          (fun m => m.name == "zzz") ++
       ([(⟨"bar", "void", [], [], 1, 2, "sigB", "bodyB"⟩ : MethodSignature)]).filter
          (ciNameMatch "zzz") ++
       ([(⟨"bar", "void", [], [], 1, 2, "sigB", "bodyB"⟩ : MethodSignature)]).filter
          (substrNameMatch "zzz")).head?) ∧
    (extractSpecificMethod "zzz" [⟨"bar", 9, 9, "sigB", "bodyB"⟩]
      (mkExtractionResult none none (some "zzz"))).status = "failure" :=
  ⟨c3_find_specific_method_tiers.1 _ _,
   c3_find_specific_method_tiers.2 "zzz" _ none none rfl⟩

/-! ## Claim C7

The concrete Java file behind the counterexample (line numbers on the left):

line 1: an annotated test method, at-sign Test, then public void zzz() with
its body on the same line;
line 2: public void aaa() with its body on the same line.

Pattern 1 of `EnhancedMethodExtractor` cannot match line 1: neither its
modifier class nor its return-type class accepts the at-sign of the
same-line annotation, so its finditer yields only aaa at line 2.  Pattern 2
(which allows leading annotations) matches both lines, in position order zzz
at line 1 then aaa at line 2.  `_find_all_methods` therefore sees the match
lists [[aaa at 2], [zzz at 1, aaa at 2]] and deduplicates them to
[aaa at 2, zzz at 1] — a catalogue that is not sorted by ascending line
number. -/

/-- C7, counterexample.  The claim says the fileMethodCatalog is sorted by
ascending line number; on the file above the catalogue comes out in
pattern-major discovery order [aaa at 2, zzz at 1], which ascending-line
sortedness (pairwise ≤ on the line components) refutes. -/
theorem c7_counterexample :
    (extractSpecificMethod "bbb"
      (findAllMethods [[⟨"aaa", 2, 2, "sigA", "bodyA"⟩],
                       [⟨"zzz", 1, 1, "sigZ", "bodyZ"⟩,
                        ⟨"aaa", 2, 2, "sigA", "bodyA"⟩]])
      (mkExtractionResult (some "T.java") (some "T") (some "bbb"))).methodList
        = [("aaa", 2), ("zzz", 1)] ∧
    ¬ List.Pairwise (fun a b : String × Nat => a.2 ≤ b.2)
        [("aaa", 2), ("zzz", 1)] := by
  refine ⟨rfl, ?_⟩
  decide

/-- C7, amended: when no discovered method matches the requested name
exactly, extraction fails with reason method_not_found and the result's
method_list is the full discovered catalogue — the (name, line) pair of
every method the two patterns found, deduplicated by (name, line), in
pattern-major discovery order rather than sorted by ascending line — and
every catalogue entry comes from a discovered method (none is fabricated). -/
theorem c7_method_not_found_catalogue (target : String)
    (patternMatches : List (List MethodInfo)) (fp cn : Option String)
    (h : (findAllMethods patternMatches).filter (fun m => m.name == target) = []) :
    (extractSpecificMethod target (findAllMethods patternMatches)
        (mkExtractionResult fp cn (some target))).status = "failure" ∧
    (extractSpecificMethod target (findAllMethods patternMatches)
        (mkExtractionResult fp cn (some target))).reason
      = some "method_not_found" ∧
    (extractSpecificMethod target (findAllMethods patternMatches)
        (mkExtractionResult fp cn (some target))).methodList
      = (findAllMethods patternMatches).map (fun m => (m.name, m.lineStart)) ∧
    ∀ q ∈ (extractSpecificMethod target (findAllMethods patternMatches)
        (mkExtractionResult fp cn (some target))).methodList,
      ∃ m, m ∈ findAllMethods patternMatches ∧ q = (m.name, m.lineStart) := by
  simp only [extractSpecificMethod, h]
  refine ⟨by trivial, by trivial, by trivial, ?_⟩
  intro q hq
  rcases List.mem_map.mp hq with ⟨m, hm, hqm⟩
  exact ⟨m, hm, hqm.symm⟩

/-- C7, witness. -/
theorem c7_witness :
    (extractSpecificMethod "qqq" (findAllMethods [[⟨"aaa", 2, 2, "sigA", "bodyA"⟩]])
        (mkExtractionResult none none (some "qqq"))).reason
      = some "method_not_found" :=
  (c7_method_not_found_catalogue "qqq" [[⟨"aaa", 2, 2, "sigA", "bodyA"⟩]]
    none none rfl).2.1

/-! ## Claim C8

The counterexample file (compare the C7 section) holds exactly two overloads
of foo:

line 1: annotated, at-sign Test, then public void foo() with its body on the
same line;
line 2: public void foo(int x) with its body on the same line.

Pattern 1 matches only line 2; pattern 2 matches lines 1 and 2, so the
deduplicated discovery list is [foo at 2, foo at 1] and the selected
overload is the line-2 one, not the overload that appears first in source
order. -/

/-- C8, counterexample.  The claim says the selected method is the overload
first in source order (line 1, bodyF1); the code selects the head of the
discovery list, the line-2 overload. -/
theorem c8_counterexample :
    (extractSpecificMethod "foo"
      (findAllMethods [[⟨"foo", 2, 2, "sigF2", "bodyF2"⟩],
                       [⟨"foo", 1, 1, "sigF1", "bodyF1"⟩,
                        ⟨"foo", 2, 2, "sigF2", "bodyF2"⟩]])
      (mkExtractionResult (some "T.java") (some "T") (some "foo"))).status
        = "success" ∧
    (extractSpecificMethod "foo"
      (findAllMethods [[⟨"foo", 2, 2, "sigF2", "bodyF2"⟩],
                       [⟨"foo", 1, 1, "sigF1", "bodyF1"⟩,
                        ⟨"foo", 2, 2, "sigF2", "bodyF2"⟩]])
      (mkExtractionResult (some "T.java") (some "T") (some "foo"))).methodCandidates.length
        = 2 ∧
    (extractSpecificMethod "foo"
      (findAllMethods [[⟨"foo", 2, 2, "sigF2", "bodyF2"⟩],
                       [⟨"foo", 1, 1, "sigF1", "bodyF1"⟩,
                        ⟨"foo", 2, 2, "sigF2", "bodyF2"⟩]])
      (mkExtractionResult (some "T.java") (some "T") (some "foo"))).lineRange
        = some (2, 2) ∧
    ¬ ((extractSpecificMethod "foo"
      (findAllMethods [[⟨"foo", 2, 2, "sigF2", "bodyF2"⟩],
                       [⟨"foo", 1, 1, "sigF1", "bodyF1"⟩,
                        ⟨"foo", 2, 2, "sigF2", "bodyF2"⟩]])
      (mkExtractionResult (some "T.java") (some "T") (some "foo"))).methodCodeSnippet
        = some "bodyF1") := by
  refine ⟨rfl, rfl, rfl, ?_⟩
  decide

/-- C8, amended: when the exact-name filter over the discovered method list
yields exactly two overloads, extraction succeeds with both as candidates
and selects the first element of that filtered list — the overload
discovered first (pattern-major order), which coincides with source order
only when both overloads are found by the same pattern pass. -/
theorem c8_two_overloads (target : String) (methods : List MethodInfo)
    (fp cn : Option String) (m1 m2 : MethodInfo)
    (h : methods.filter (fun m => m.name == target) = [m1, m2]) :
    (extractSpecificMethod target methods
        (mkExtractionResult fp cn (some target))).status = "success" ∧
    (extractSpecificMethod target methods
        (mkExtractionResult fp cn (some target))).methodCandidates = [m1, m2] ∧
    (extractSpecificMethod target methods
        (mkExtractionResult fp cn (some target))).methodCodeSnippet
      = some m1.body ∧
    (extractSpecificMethod target methods
        (mkExtractionResult fp cn (some target))).lineRange
      = some (m1.lineStart, m1.lineEnd) := by
  simp only [extractSpecificMethod, h]
  exact ⟨by trivial, by trivial, by trivial, by trivial⟩

/-- C8, witness. -/
theorem c8_witness :
    (extractSpecificMethod "go"
      [⟨"go", 4, 6, "sigG1", "bodyG1"⟩, ⟨"go", 8, 9, "sigG2", "bodyG2"⟩]
      (mkExtractionResult none none (some "go"))).methodCandidates
      = [⟨"go", 4, 6, "sigG1", "bodyG1"⟩, ⟨"go", 8, 9, "sigG2", "bodyG2"⟩] :=
  (c8_two_overloads "go"
    [⟨"go", 4, 6, "sigG1", "bodyG1"⟩, ⟨"go", 8, 9, "sigG2", "bodyG2"⟩]
    none none ⟨"go", 4, 6, "sigG1", "bodyG1"⟩ ⟨"go", 8, 9, "sigG2", "bodyG2"⟩
    rfl).2.1

/-! ## Claim C1 -/

/-- C1, counterexample.  The claim says a located file with no matching
declaration yields an envelope with status success carrying the method
catalogue.  Tracing `_extract_specific_method` (status stays at the failure
default, reason method_not_found) through `_create_final_result` and
`MethodExtractionResult.to_dict`, the envelope has status failure — not
success — and its to_dict failure branch omits the method_list key
entirely. -/
theorem c1_counterexample :
    (createFinalResult
      (extractSpecificMethod "bar" [⟨"foo", 1, 4, "sigF", "bodyF"⟩]
        (mkExtractionResult (some "A.java") (some "pkg.A") (some "bar")))
      (some ["repo", "src", "A.java"])).status = "failure" ∧
    ¬ ((createFinalResult
      (extractSpecificMethod "bar" [⟨"foo", 1, 4, "sigF", "bodyF"⟩]
        (mkExtractionResult (some "A.java") (some "pkg.A") (some "bar")))
      (some ["repo", "src", "A.java"])).status = "success") ∧
    (createFinalResult
      (extractSpecificMethod "bar" [⟨"foo", 1, 4, "sigF", "bodyF"⟩]
        (mkExtractionResult (some "A.java") (some "pkg.A") (some "bar")))
      (some ["repo", "src", "A.java"])).methodList = none := by
  refine ⟨rfl, ?_, rfl⟩
  decide

/-- C1, amended: when the located file contains no declaration matching the
requested method, the final envelope has status failure with reason
method_not_found — distinguishable from the file-not-found envelope by its
reason (file_not_found), not by its status — the extraction result object
carries the file's method catalogue in its method_list, but the failure
branch of to_dict drops that catalogue from the envelope. -/
theorem c1_method_not_found_envelope (target : String)
    (methods : List MethodInfo) (fp cn : Option String)
    (frPath : Option (List String))
    (h : methods.filter (fun m => m.name == target) = []) :
    (createFinalResult
      (extractSpecificMethod target methods
        (mkExtractionResult fp cn (some target))) frPath).status = "failure" ∧
    (createFinalResult
      (extractSpecificMethod target methods
        (mkExtractionResult fp cn (some target))) frPath).reason
      = some "method_not_found" ∧
    (createFinalResult
      (extractSpecificMethod target methods
        (mkExtractionResult fp cn (some target))) frPath).methodList = none ∧
    (extractSpecificMethod target methods
        (mkExtractionResult fp cn (some target))).methodList
      = methods.map (fun m => (m.name, m.lineStart)) ∧
    ∀ (cf : String) (mf : Option String) (sp : List String),
      (createFileNotFoundResult cf mf sp).reason = some "file_not_found" ∧
      ¬ ((some "method_not_found" : Option String) = some "file_not_found") := by
  have hext : extractSpecificMethod target methods
      (mkExtractionResult fp cn (some target))
      = { status := "failure", filePath := fp, className := cn,
          methodName := some target,
          methodList := methods.map (fun m => (m.name, m.lineStart)),
          reason := some "method_not_found",
          suggestions := ["Check method name spelling",
                          "Choose from available methods",
                          "Verify the method exists in this class"] } := by
    simp only [extractSpecificMethod, h]
    rfl
  rw [hext]
  cases frPath <;>
    exact ⟨by simp [createFinalResult, resultToDict],
           by simp [createFinalResult, resultToDict],
           by simp [createFinalResult, resultToDict], rfl,
           fun _ _ _ => ⟨rfl, by decide⟩⟩

/-- C1, witness. -/
theorem c1_witness :
    (createFinalResult
      (extractSpecificMethod "doIt" [⟨"run", 7, 9, "sigR", "bodyR"⟩]
        (mkExtractionResult (some "B.java") (some "pkg.B") (some "doIt")))
      none).reason = some "method_not_found" :=
  And.left (And.right (c1_method_not_found_envelope "doIt"
    [⟨"run", 7, 9, "sigR", "bodyR"⟩] (some "B.java") (some "pkg.B") none rfl))

/-! ## Claim C10 -/

/-- C10: a missing repository root makes `find_file` fail immediately with
strategy error — a failure kind distinct from the strategies recorded on
ordinary file-not-found failures (not_found, explicit_path_not_found,
exact_fqn_not_found) — having probed nothing but the root itself: no search
strategy or directory traversal runs. -/
theorem c10_repo_root_missing (fs : FS) (classFqn : String)
    (repoRoot : List String) (explicitPath : Option (List String))
    (h : fsExists fs repoRoot = false) :
    findFile fs classFqn repoRoot explicitPath =
      { strategy := "error", searchedPaths := [repoRoot] } ∧
    (findFile fs classFqn repoRoot explicitPath).success = false ∧
    ("error" : String) ≠ "not_found" ∧
    ("error" : String) ≠ "explicit_path_not_found" ∧
    ("error" : String) ≠ "exact_fqn_not_found" := by
  have hf : findFile fs classFqn repoRoot explicitPath =
      { strategy := "error", searchedPaths := [repoRoot] } := by
    simp [findFile, h]
  exact ⟨hf, by rw [hf]; rfl, by decide, by decide, by decide⟩

/-- C10, witness. -/
theorem c10_witness :
    findFile ⟨[]⟩ "com.x.Y" ["nope"] none =
      { strategy := "error", searchedPaths := [["nope"]] } :=
  (c10_repo_root_missing ⟨[]⟩ "com.x.Y" ["nope"] none rfl).1

/-! ## Claim C4 -/

/-- C4: on any filesystem holding repoRoot/com, repoRoot/com/x and the file
repoRoot/com/x/Y.java, locating class com.x.Y succeeds through the
incremental-traversal strategy — descending com then x and probing Y.java —
recording the how_found label that strategy emits (the string exact_fqn, at
stacktrace_locator.py line 288), which differs from the fuzzy-fallback
labels fuzzy and case_insensitive; the fallback never runs. -/
theorem c4_incremental_traversal (fs : FS) (r : List String)
    (h1 : fsIsDir fs (r ++ ["com"]) = true)
    (h2 : fsIsDir fs (r ++ ["com", "x"]) = true)
    (h3 : fsExists fs (r ++ ["com", "x", "Y.java"]) = true) :
    locateFile fs "com.x.Y" r false none =
      { success := true, filePath := some (r ++ ["com", "x", "Y.java"]),
        howFound := some "exact_fqn",
        searchedPaths :=
          [r, r ++ ["com"], r ++ ["com", "x"], r ++ ["com", "x", "Y.java"]] } ∧
    (some "exact_fqn" : Option String) ≠ some "fuzzy" ∧
    (some "exact_fqn" : Option String) ≠ some "case_insensitive" := by
  have hs : splitOnChar '.' "com.x.Y" = ["com", "x", "Y"] := rfl
  have hinc : incrementalTraversal fs "com.x.Y" r =
      { success := true, filePath := some (r ++ ["com", "x", "Y.java"]),
        howFound := some "exact_fqn",
        searchedPaths :=
          [r, r ++ ["com"], r ++ ["com", "x"], r ++ ["com", "x", "Y.java"]] } := by
    unfold incrementalTraversal
    rw [hs]
    simp [incrementalAux, show looksLikeClass "com" = false from rfl,
      show looksLikeClass "x" = false from rfl,
      show looksLikeClass "Y" = true from rfl, h1, h2, h3]
  refine ⟨?_, by decide, by decide⟩
  simp [locateFile, hinc]

/-- C4, witness: the concrete repository repo/com/x/Y.java. -/
theorem c4_witness :
    locateFile ⟨[(["repo"], []), (["repo", "com"], []),
                 (["repo", "com", "x"], ["Y.java"])]⟩ "com.x.Y" ["repo"]
        false none =
      { success := true, filePath := some ["repo", "com", "x", "Y.java"],
        howFound := some "exact_fqn",
        searchedPaths := [["repo"], ["repo", "com"], ["repo", "com", "x"],
                          ["repo", "com", "x", "Y.java"]] } := by
  have h := (c4_incremental_traversal
    ⟨[(["repo"], []), (["repo", "com"], []),
      (["repo", "com", "x"], ["Y.java"])]⟩ ["repo"] rfl rfl rfl).1
  simpa using h

/-! ## Cache lemmas -/

theorem store_memoryCache {δ : Type} (st : CacheState δ) (k : String) (v : δ)
    (now : Nat) :
    (storeExtractedCode st k v now).memoryCache =
      dictInsert st.memoryCache
        ⟨k, v, now, 0, now, "extracted_code"⟩ := by
  simp only [storeExtractedCode, saveCache]
  split <;> rfl

theorem store_maxAge {δ : Type} (st : CacheState δ) (k : String) (v : δ)
    (now : Nat) :
    (storeExtractedCode st k v now).maxAge = st.maxAge := by
  simp only [storeExtractedCode, saveCache]
  split <;> rfl

theorem find?_map_replace {δ : Type} (e : CacheEntry δ) :
    ∀ l : List (CacheEntry δ), l.any (fun x => x.key == e.key) = true →
      (l.map (fun x => if x.key == e.key then e else x)).find?
        (fun x => x.key == e.key) = some e := by
  intro l
  induction l with
  | nil => intro h; cases h
  | cons a l ih =>
    intro h
    rw [List.map_cons]
    by_cases pa : (a.key == e.key) = true
    · rw [if_pos pa, List.find?_cons, beq_self_eq_true e.key]
    · have pa' : (a.key == e.key) = false := by simpa using pa
      rw [if_neg pa, List.find?_cons, pa']
      apply ih
      rw [List.any_cons] at h
      simpa [pa'] using h

theorem find?_append_singleton {δ : Type} (e : CacheEntry δ) :
    ∀ l : List (CacheEntry δ), l.any (fun x => x.key == e.key) = false →
      (l ++ [e]).find? (fun x => x.key == e.key) = some e := by
  intro l
  induction l with
  | nil =>
    intro _
    rw [List.nil_append, List.find?_cons, beq_self_eq_true e.key]
  | cons a l ih =>
    intro h
    rw [List.any_cons] at h
    have hpa : (a.key == e.key) = false := by
      by_contra hc
      rw [show (a.key == e.key) = true by simpa using hc] at h
      simp at h
    rw [List.cons_append, List.find?_cons, hpa]
    apply ih
    simpa [hpa] using h

theorem find?_dictInsert {δ : Type} (e : CacheEntry δ)
    (l : List (CacheEntry δ)) :
    (dictInsert l e).find? (fun x => x.key == e.key) = some e := by
  unfold dictInsert
  by_cases h : l.any (fun x => x.key == e.key) = true
  · rw [if_pos h]
    exact find?_map_replace e l h
  · rw [if_neg h]
    exact find?_append_singleton e l (by simpa using h)

theorem find?_map_update {δ : Type} (k : String)
    (g : CacheEntry δ → CacheEntry δ) (hg : ∀ x, (g x).key = x.key) :
    ∀ l : List (CacheEntry δ),
      (l.map (fun x => if x.key == k then g x else x)).find?
          (fun x => x.key == k)
        = (l.find? (fun x => x.key == k)).map g := by
  intro l
  induction l with
  | nil => rfl
  | cons a l ih =>
    rw [List.map_cons]
    by_cases pa : (a.key == k) = true
    · have pga : ((g a).key == k) = true := by rw [hg]; exact pa
      rw [if_pos pa]
      rw [List.find?_cons, pga]
      rw [show List.find? (fun x => x.key == k) (a :: l)
        = some a by rw [List.find?_cons, pa]]
      rfl
    · have pa' : (a.key == k) = false := by simpa using pa
      rw [if_neg pa]
      rw [List.find?_cons, pa']
      rw [show List.find? (fun x => x.key == k) (a :: l)
        = List.find? (fun x => x.key == k) l by rw [List.find?_cons, pa']]
      exact ih

theorem dictInsert_nodupKeys {δ : Type} (l : List (CacheEntry δ))
    (e : CacheEntry δ) (h : (l.map (fun x => x.key)).Nodup) :
    ((dictInsert l e).map (fun x => x.key)).Nodup := by
  unfold dictInsert
  by_cases hl : (l.any (fun x => x.key == e.key)) = true
  · rw [if_pos hl]
    have hmap : (l.map (fun x => if x.key == e.key then e else x)).map
        (fun x => x.key) = l.map (fun x => x.key) := by
      rw [List.map_map]
      refine List.map_congr_left ?_
      intro x _
      by_cases hx : (x.key == e.key) = true
      · show (if x.key == e.key then e else x).key = x.key
        rw [if_pos hx]
        exact (eq_of_beq hx).symm
      · show (if x.key == e.key then e else x).key = x.key
        rw [if_neg hx]
    rw [hmap]
    exact h
  · rw [if_neg hl]
    have hany : (l.any fun x => x.key == e.key) = false := by
      rwa [Bool.not_eq_true] at hl
    have hnot : e.key ∉ l.map (fun x => x.key) := by
      intro hmem
      rcases List.mem_map.mp hmem with ⟨x, hx, hxk⟩
      have hfalse := List.any_eq_false.mp hany x hx
      exact hfalse (by rw [hxk]; exact beq_self_eq_true _)
    rw [List.map_append]
    simp [List.nodup_append, h, hnot]

theorem eraseP_key_all_ne {δ : Type} (k : String) :
    ∀ l : List (CacheEntry δ), (l.map (fun x => x.key)).Nodup →
      ∀ e ∈ l.eraseP (fun x => x.key == k), (e.key == k) = false := by
  intro l
  induction l with
  | nil => intro _ e he; simp at he
  | cons a l ih =>
    intro hnd e he
    rw [List.map_cons, List.nodup_cons] at hnd
    by_cases ha : (a.key == k) = true
    · have he2 : e ∈ l := by
        rw [List.eraseP_cons, ha] at he
        exact he
      have hak : a.key = k := eq_of_beq ha
      by_contra hbeq
      have hek : e.key = k := eq_of_beq (by simpa using hbeq)
      exact hnd.1 (by
        rw [hak, ← hek]
        exact List.mem_map.mpr ⟨e, he2, rfl⟩)
    · have ha' : (a.key == k) = false := by simpa using ha
      have he2 : e ∈ a :: l.eraseP (fun x => x.key == k) := by
        rw [List.eraseP_cons, ha'] at he
        exact he
      rcases List.mem_cons.mp he2 with rfl | he'
      · exact ha'
      · exact ih hnd.2 e he'

theorem sortLA_head_min {δ : Type} (l : List (CacheEntry δ))
    (m : CacheEntry δ) (h : (sortByLastAccessed l).head? = some m) :
    m ∈ l ∧ ∀ x ∈ l, m.lastAccessed ≤ x.lastAccessed := by
  haveI hTot : IsTotal (CacheEntry δ)
      (fun a b => a.lastAccessed ≤ b.lastAccessed) :=
    ⟨fun a b => Nat.le_total _ _⟩
  haveI hTrans : IsTrans (CacheEntry δ)
      (fun a b => a.lastAccessed ≤ b.lastAccessed) :=
    ⟨fun _ _ _ hab hbc => Nat.le_trans hab hbc⟩
  have hperm := List.perm_insertionSort
    (fun a b : CacheEntry δ => a.lastAccessed ≤ b.lastAccessed) l
  have hsort := List.sorted_insertionSort
    (fun a b : CacheEntry δ => a.lastAccessed ≤ b.lastAccessed) l
  rw [show List.insertionSort
      (fun a b : CacheEntry δ => a.lastAccessed ≤ b.lastAccessed) l
    = sortByLastAccessed l from rfl] at hperm hsort
  cases hsl : sortByLastAccessed l with
  | nil => rw [hsl] at h; cases h
  | cons a t =>
    rw [hsl] at h hperm hsort
    have ham : a = m := by
      rw [List.head?_cons] at h
      exact Option.some.inj h
    subst ham
    constructor
    · exact hperm.mem_iff.mp (List.mem_cons_self a t)
    · intro x hx
      have hx' : x ∈ a :: t := hperm.mem_iff.mpr hx
      rcases List.mem_cons.mp hx' with rfl | hxt
      · exact Nat.le_refl _
      · exact List.rel_of_sorted_cons hsort x hxt


/-! ## Claim C6 -/

/-- C6: storing a payload under key k and reading it back within max_age of
creation is a hit returning the payload unchanged, with the entry's access
count bumped to 1 and its last-accessed time set to the read instant; a read
strictly later than max_age after creation is a miss that removes the
expired entry from the cache at the read.  (The payload is the already
serialized data dictionary the cache boundary stores; key uniqueness of the
Python dict is the Nodup hypothesis.) -/
theorem c6_cache_roundtrip {δ : Type} (st : CacheState δ) (k : String)
    (v : δ) (t0 t1 : Nat)
    (hnd : (st.memoryCache.map (fun x => x.key)).Nodup) :
    (t1 - t0 ≤ st.maxAge →
      (getExtractedCode (storeExtractedCode st k v t0) k t1).1 = some v ∧
      ((getExtractedCode (storeExtractedCode st k v t0) k t1).2.memoryCache.find?
          (fun x => x.key == k))
        = some ⟨k, v, t0, 1, t1, "extracted_code"⟩) ∧
    (st.maxAge < t1 - t0 →
      (getExtractedCode (storeExtractedCode st k v t0) k t1).1 = none ∧
      ∀ e ∈ (getExtractedCode (storeExtractedCode st k v t0) k t1).2.memoryCache,
        (e.key == k) = false) := by
  have hmem := store_memoryCache st k v t0
  have hage := store_maxAge st k v t0
  have hfind : (storeExtractedCode st k v t0).memoryCache.find?
      (fun x => x.key == k) = some ⟨k, v, t0, 0, t0, "extracted_code"⟩ := by
    rw [hmem]
    exact find?_dictInsert ⟨k, v, t0, 0, t0, "extracted_code"⟩ st.memoryCache
  have hnd1 : ((storeExtractedCode st k v t0).memoryCache.map
      (fun x => x.key)).Nodup := by
    rw [hmem]
    exact dictInsert_nodupKeys st.memoryCache _ hnd
  constructor
  · intro hle
    have hcond : t1 - (⟨k, v, t0, 0, t0, "extracted_code"⟩ : CacheEntry δ).timestamp
        ≤ (storeExtractedCode st k v t0).maxAge := by
      rw [hage]
      exact hle
    constructor
    · simp only [getExtractedCode, hfind, if_pos hcond]
    · simp only [getExtractedCode, hfind, if_pos hcond]
      rw [find?_map_update k
        (fun x => { x with accessCount := x.accessCount + 1, lastAccessed := t1 })
        (fun x => rfl), hfind]
      rfl
  · intro hgt
    have hcond : ¬ (t1 - (⟨k, v, t0, 0, t0, "extracted_code"⟩ : CacheEntry δ).timestamp
        ≤ (storeExtractedCode st k v t0).maxAge) := by
      rw [hage]
      simp only [Nat.not_le]
      exact hgt
    constructor
    · simp only [getExtractedCode, hfind, if_neg hcond]
    · simp only [getExtractedCode, hfind, if_neg hcond]
      exact eraseP_key_all_ne k (storeExtractedCode st k v t0).memoryCache hnd1
/-- C6, witness. -/
theorem c6_witness :
    (getExtractedCode
      (storeExtractedCode
        ({ maxAge := 5, maxEntries := 10 } : CacheState Nat) "k1" 42 3)
      "k1" 7).1 = some 42 :=
  ((c6_cache_roundtrip { maxAge := 5, maxEntries := 10 } "k1" 42 3 7
    List.nodup_nil).1 (by decide)).1

/-! ## Claim C5 -/

/-- C5, counterexample.  The claim says the entry count never exceeds
maxEntries after a put; `store_extracted_code` never evicts, so two stores
into a cache with maxEntries 1 leave two entries. -/
theorem c5_counterexample :
    (storeExtractedCode
      (storeExtractedCode
        ({ maxAge := 100, maxEntries := 1 } : CacheState Nat) "k1" 7 0)
      "k2" 8 1).memoryCache.length = 2 ∧
    ¬ ((storeExtractedCode
      (storeExtractedCode
        ({ maxAge := 100, maxEntries := 1 } : CacheState Nat) "k1" 7 0)
      "k2" 8 1).memoryCache.length ≤ 1) := by
  constructor
  · rfl
  · decide

/-- C5, amended: `store_extracted_code` inserts without evicting (persisting
a snapshot only on every tenth entry); LRU eviction lives in
`cleanup_cache`: on a cache of maxEntries + 1 unexpired entries whose
least-recently-accessed entry is unique, cleanup_cache removes exactly that
entry (the head of the stable sort by last-accessed time) and persists a
full snapshot of the surviving entries. -/
theorem c5_cleanup_evicts_lru {δ : Type} (st : CacheState δ) (now : Nat)
    (e0 : CacheEntry δ)
    (hfresh : ∀ e ∈ st.memoryCache, now - e.timestamp ≤ st.maxAge)
    (hlen : st.memoryCache.length = st.maxEntries + 1)
    (he : e0 ∈ st.memoryCache)
    (hmin : ∀ x ∈ st.memoryCache, x.key ≠ e0.key →
      e0.lastAccessed < x.lastAccessed) :
    (cleanupCache st now).memoryCache =
      st.memoryCache.filter (fun e => !(e.key == e0.key)) ∧
    (cleanupCache st now).disk =
      st.memoryCache.filter (fun e => !(e.key == e0.key)) := by
  have hlive : st.memoryCache.filter
      (fun e => decide (now - e.timestamp ≤ st.maxAge)) = st.memoryCache :=
    List.filter_eq_self.mpr (fun a ha => decide_eq_true (hfresh a ha))
  have hgt : st.maxEntries < st.memoryCache.length := by omega
  have hlen2 : (sortByLastAccessed st.memoryCache).length
      = st.memoryCache.length :=
    (List.perm_insertionSort _ _).length_eq
  obtain ⟨m, t, hmt⟩ : ∃ m t, sortByLastAccessed st.memoryCache = m :: t := by
    cases hsl : sortByLastAccessed st.memoryCache with
    | nil =>
      rw [hsl] at hlen2
      simp at hlen2
      omega
    | cons a t => exact ⟨a, t, rfl⟩
  obtain ⟨hm_mem, hm_min⟩ := sortLA_head_min st.memoryCache m
    (by rw [hmt]; rfl)
  have hkey : m.key = e0.key := by
    by_contra hne
    have h1 := hmin m hm_mem hne
    have h2 := hm_min e0 he
    omega
  have htake : st.memoryCache.length - st.maxEntries = 1 := by omega
  have hfil : st.memoryCache.filter
        (fun e => !([m.key].contains e.key))
      = st.memoryCache.filter (fun e => !(e.key == e0.key)) := by
    refine List.filter_congr ?_
    intro x _
    rw [hkey]
    by_cases hx : x.key = e0.key
    · simp [hx]
    · simp [List.contains_cons, hx]
  have hless : (st.memoryCache.filter
      (fun e => !(e.key == e0.key))).length < st.memoryCache.length := by
    refine List.length_filter_lt_length_iff_exists.mpr ⟨e0, he, ?_⟩
    simp
  have hfinal : (if st.maxEntries <
        (st.memoryCache.filter
          (fun e => decide (now - e.timestamp ≤ st.maxAge))).length then
      (st.memoryCache.filter
          (fun e => decide (now - e.timestamp ≤ st.maxAge))).filter
        (fun e =>
          !(((sortByLastAccessed
              (st.memoryCache.filter
                (fun e => decide (now - e.timestamp ≤ st.maxAge)))).take
            ((st.memoryCache.filter
                (fun e => decide (now - e.timestamp ≤ st.maxAge))).length
              - st.maxEntries)).map (fun e => e.key)).contains e.key)
    else st.memoryCache.filter
      (fun e => decide (now - e.timestamp ≤ st.maxAge)))
      = st.memoryCache.filter (fun e => !(e.key == e0.key)) := by
    rw [hlive, if_pos hgt, htake, hmt]
    rw [show (m :: t).take 1 = [m] from rfl]
    rw [show ([m].map (fun e => e.key)) = [m.key] from rfl]
    exact hfil
  have hclean : cleanupCache st now =
      saveCache { st with memoryCache :=
        st.memoryCache.filter (fun e => !(e.key == e0.key)) } := by
    simp only [cleanupCache]
    rw [hfinal]
    rw [if_pos (by omega : 0 < st.memoryCache.length -
      (st.memoryCache.filter (fun e => !(e.key == e0.key))).length)]
  rw [hclean]
  exact ⟨rfl, rfl⟩

/-- C5, witness for the amended theorem: a three-entry cache with
maxEntries 2, whose key-b entry is least recently accessed. -/
theorem c5_witness :
    (cleanupCache
      ({ maxAge := 100, maxEntries := 2,
         memoryCache := [⟨"a", 7, 0, 0, 5, "extracted_code"⟩,
                         ⟨"b", 8, 0, 0, 1, "extracted_code"⟩,
                         ⟨"c", 9, 0, 0, 9, "extracted_code"⟩] } : CacheState Nat)
      10).memoryCache =
    ([⟨"a", 7, 0, 0, 5, "extracted_code"⟩,
      ⟨"b", 8, 0, 0, 1, "extracted_code"⟩,
      ⟨"c", 9, 0, 0, 9, "extracted_code"⟩] :
        List (CacheEntry Nat)).filter (fun e => !(e.key == "b")) :=
  (c5_cleanup_evicts_lru
    { maxAge := 100, maxEntries := 2,
      memoryCache := [⟨"a", 7, 0, 0, 5, "extracted_code"⟩,
                      ⟨"b", 8, 0, 0, 1, "extracted_code"⟩,
                      ⟨"c", 9, 0, 0, 9, "extracted_code"⟩] }
    10 ⟨"b", 8, 0, 0, 1, "extracted_code"⟩
    (by decide) rfl (by decide) (by decide)).1

/-! ## Parser lemmas (claim C9) -/

theorem trimL_within (l : List Char) : trimL l <:+: l := by
  unfold trimL
  have h1 : l.dropWhile isPySpace <:+ l := List.dropWhile_suffix _
  have h2 : (l.dropWhile isPySpace).reverse.dropWhile isPySpace
      <:+ (l.dropWhile isPySpace).reverse := List.dropWhile_suffix _
  rw [← List.reverse_reverse
    ((l.dropWhile isPySpace).reverse.dropWhile isPySpace)] at h2
  exact (List.reverse_suffix.mp h2).isInfix.trans h1.isInfix

theorem paramStripL_within (t : List Char) : paramStripL t <:+: t := by
  simp only [paramStripL]
  split
  · split
    · split
      · exact (List.take_prefix _ _).isInfix
      · exact List.infix_rfl
    · exact List.infix_rfl
  · exact List.infix_rfl

theorem cleanInputL_within (l : List Char) : cleanInputL l <:+: l :=
  (paramStripL_within (trimL l)).trans (trimL_within l)

theorem intellijMatchL_method_suffix {t c m : List Char}
    (h : intellijMatchL t = some (c, m)) : m <:+ t := by
  simp only [intellijMatchL] at h
  split at h
  · have hm : m = (t.dropWhile (fun ch => !(ch == '#'))).drop 1 := by
      injection h with h'
      injection h' with h1 h2
      exact h2.symm
    rw [hm]
    exact (List.drop_suffix _ _).trans (List.dropWhile_suffix _)
  · cases h

theorem stackFrameMatchL_method_within {t c m : List Char}
    (h : stackFrameMatchL t = some (c, m)) : m <:+: t := by
  simp only [stackFrameMatchL] at h
  split at h
  case _ heq =>
    split at h
    case _ heq2 =>
      split at h
      · split at h
        · have hm : m = ((t.takeWhile (fun c => isWordA c || c == '.')).reverse.takeWhile
              (fun c => !(c == '.'))).reverse := by
            injection h with h'
            injection h' with h1 h2
            exact h2.symm
          rw [hm]
          have hp : (t.takeWhile (fun c => isWordA c || c == '.')).reverse.takeWhile
              (fun c => !(c == '.'))
              <+: (t.takeWhile (fun c => isWordA c || c == '.')).reverse :=
            List.takeWhile_prefix _
          have hs : ((t.takeWhile (fun c => isWordA c || c == '.')).reverse.takeWhile
              (fun c => !(c == '.'))).reverse
              <:+ t.takeWhile (fun c => isWordA c || c == '.') := by
            refine List.reverse_prefix.mp ?_
            rw [List.reverse_reverse]
            exact hp
          exact hs.isInfix.trans (List.takeWhile_prefix _).isInfix
        · cases h
      · cases h
    case _ => cases h
  case _ => cases h

/-- C9, counterexample.  The claim says parse never returns the method field
equal to the literal string unknown for any input; the input Foo#unknown
(a legitimate request for a method named unknown) makes the IntelliJ
pattern return exactly that method. -/
theorem c9_counterexample :
    (parseRobust ("Foo#unknown".data)).method = some ("unknown".data) := rfl

/-- C9, amended: parse never fabricates a method name — whenever the parsed
method is present it is a contiguous substring of the raw input (so it
equals unknown only when the input itself contains that token), and when the
input names no method the field is a true none. -/
theorem c9_parse_never_fabricates (l : List Char) (m : List Char)
    (h : (parseRobust l).method = some m) : m <:+: l := by
  simp only [parseRobust] at h
  by_cases hf : isFilePathL (cleanInputL l) = true
  · rw [if_pos hf] at h
    simp [parseFilePathL] at h
  · rw [if_neg hf] at h
    cases hi : intellijMatchL (cleanInputL l) with
    | some cm =>
      obtain ⟨c, m'⟩ := cm
      simp only [hi] at h
      have hm : m' = m := by simpa using h
      rw [← hm]
      exact ((intellijMatchL_method_suffix hi).isInfix).trans
        (cleanInputL_within l)
    | none =>
      simp only [hi] at h
      cases hs : stackFrameMatchL (cleanInputL l) with
      | some cm =>
        obtain ⟨c, m'⟩ := cm
        simp only [hs] at h
        have hm : m' = m := by simpa using h
        rw [← hm]
        exact (stackFrameMatchL_method_within hs).trans (cleanInputL_within l)
      | none =>
        simp only [hs] at h
        split at h <;> simp at h

/-- C9, witness for the amended theorem. -/
theorem c9_witness :
    (parseRobust ("Foo#bar".data)).method = some ("bar".data) ∧
    ("bar".data) <:+: ("Foo#bar".data) :=
  ⟨rfl, c9_parse_never_fabricates ("Foo#bar".data) ("bar".data) rfl⟩

/-! ## Dot-notation lemmas (claim C2) -/

theorem words_classTokAux :
    ∀ cs : List Char, (∀ c ∈ cs, isWordA c = true) →
      classTokAux cs false = true := by
  intro cs
  induction cs with
  | nil => intro _; rfl
  | cons c cs ih =>
    intro h
    have hc : isWordA c = true := h c (List.mem_cons_self _ _)
    have hd : (c == '$') = false := by
      refine beq_eq_false_iff_ne.mpr ?_
      intro hcd
      rw [hcd] at hc
      exact absurd hc (by decide)
    show classTokAux (c :: cs) false = true
    rw [show classTokAux (c :: cs) false
      = if c == '$' then classTokAux cs true
        else isWordA c && classTokAux cs false from rfl]
    rw [hd]
    simp only [Bool.false_eq_true, if_false, hc,
      ih (fun x hx => h x (List.mem_cons_of_mem _ hx)), Bool.and_self]

theorem plainIdent_all_word (t : String) (h : plainIdentTok t = true) :
    ∀ c ∈ t.data, isWordA c = true := by
  intro x hx
  cases ht : t.data with
  | nil => rw [ht] at hx; cases hx
  | cons c cs =>
    have hid : ((isUpperA c || isLowerA c) && cs.all isWordA) = true := by
      unfold plainIdentTok at h
      rw [ht] at h
      exact h
    rw [Bool.and_eq_true] at hid
    rw [ht] at hx
    rcases List.mem_cons.mp hx with rfl | hx'
    · have hor := hid.1
      rw [Bool.or_eq_true] at hor
      unfold isWordA
      rcases hor with hu | hl
      · rw [hu]
        rfl
      · rw [hl]
        simp
    · exact List.all_eq_true.mp hid.2 x hx'

theorem getLast?_word_not_newline (d : List Char)
    (hw : ∀ c ∈ d, isWordA c = true) :
    (d.getLast? == some '\n') = false := by
  cases hd : d.getLast? with
  | none => rfl
  | some x =>
    have hne : d ≠ [] := by
      intro hnil
      rw [hnil] at hd
      cases hd
    have hx : x ∈ d := by
      rw [List.getLast?_eq_getLast d hne] at hd
      have := List.getLast_mem hne
      rwa [Option.some.inj hd] at this
    have hxw := hw x hx
    have hxne : x ≠ '\n' := by
      intro hxe
      rw [hxe] at hxw
      exact absurd hxw (by decide)
    simp [hxne]

theorem plainIdent_class_eq_headUpper (t : String)
    (h : plainIdentTok t = true) :
    looksLikeClass t = headIsUpperA t := by
  obtain ⟨c, cs, ht⟩ : ∃ c cs, t.data = c :: cs := by
    cases hd : t.data with
    | nil =>
      unfold plainIdentTok at h
      rw [hd] at h
      cases h
    | cons c cs => exact ⟨c, cs, rfl⟩
  have hword : ∀ x ∈ c :: cs, isWordA x = true := by
    have hall := plainIdent_all_word t h
    rwa [ht] at hall
  have hW : ∀ x ∈ cs, isWordA x = true :=
    fun x hx => hword x (List.mem_cons_of_mem _ hx)
  have hlast : ((c :: cs).getLast? == some '\n') = false :=
    getLast?_word_not_newline _ hword
  have hhead : headIsUpperA t = isUpperA c := by
    unfold headIsUpperA
    rw [ht]
  show matchTrailNL looksLikeClassCore t.data = headIsUpperA t
  rw [hhead, ht]
  show (classTokAux (c :: cs) true
    || ((c :: cs).getLast? == some '\n' && classTokAux (c :: cs).dropLast true))
    = isUpperA c
  rw [hlast]
  rw [show classTokAux (c :: cs) true
    = (isUpperA c && classTokAux cs false) from rfl]
  rw [words_classTokAux cs hW]
  simp

theorem plainIdent_lower_method (t : String) (h : plainIdentTok t = true)
    (hup : headIsUpperA t = false) : looksLikeMethod t = true := by
  obtain ⟨c, cs, ht⟩ : ∃ c cs, t.data = c :: cs := by
    cases hd : t.data with
    | nil =>
      unfold plainIdentTok at h
      rw [hd] at h
      cases h
    | cons c cs => exact ⟨c, cs, rfl⟩
  have hid : ((isUpperA c || isLowerA c) && cs.all isWordA) = true := by
    unfold plainIdentTok at h
    rw [ht] at h
    exact h
  rw [Bool.and_eq_true] at hid
  have hcup : isUpperA c = false := by
    have := hup
    unfold headIsUpperA at this
    rw [ht] at this
    exact this
  have hLow : isLowerA c = true := by
    have hor := hid.1
    rw [Bool.or_eq_true] at hor
    rcases hor with hu | hl
    · rw [hcup] at hu
      cases hu
    · exact hl
  show (matchTrailNL lowerIdentCore t.data
    || matchTrailNL parensEndCore t.data) = true
  rw [ht]
  have hli : lowerIdentCore (c :: cs) = true := by
    show (isLowerA c && cs.all isWordA) = true
    rw [hLow, hid.2]
    rfl
  unfold matchTrailNL
  rw [hli]
  rfl

theorem cleanMethodName_words (m : String)
    (h : ∀ c ∈ m.data, isWordA c = true ∨ c = '.') :
    cleanMethodName m = m := by
  have h1 : (['(', ')'].isSuffixOf m.data) = false := by
    by_contra hx
    have hsuf : ['(', ')'] <:+ m.data :=
      List.isSuffixOf_iff_suffix.mp (by simpa using hx)
    have hmem : ')' ∈ m.data := hsuf.subset (by simp)
    rcases h _ hmem with hw | hd
    · exact absurd hw (by decide)
    · exact absurd hd (by decide)
  have h2 : (['(', ')', '\n'].isSuffixOf m.data) = false := by
    by_contra hx
    have hsuf : ['(', ')', '\n'] <:+ m.data :=
      List.isSuffixOf_iff_suffix.mp (by simpa using hx)
    have hmem : '\n' ∈ m.data := hsuf.subset (by simp)
    rcases h _ hmem with hw | hd
    · exact absurd hw (by decide)
    · exact absurd hd (by decide)
  unfold cleanMethodName
  simp [h1, h2]

theorem joinDots_chars :
    ∀ l : List String, (∀ t ∈ l, ∀ c ∈ t.data, isWordA c = true) →
      ∀ c ∈ (joinDots l).data, isWordA c = true ∨ c = '.' := by
  intro l
  induction l with
  | nil => intro _ c hc; cases hc
  | cons t ts ih =>
    intro h c hc
    cases ts with
    | nil =>
      rw [show joinDots [t] = t from rfl] at hc
      exact Or.inl (h t (List.mem_cons_self _ _) c hc)
    | cons t2 ts2 =>
      rw [show joinDots (t :: t2 :: ts2) = t ++ "." ++ joinDots (t2 :: ts2)
        from rfl] at hc
      rw [String.data_append, String.data_append] at hc
      rcases List.mem_append.mp hc with hc1 | hc2
      · rcases List.mem_append.mp hc1 with hc3 | hc4
        · exact Or.inl (h t (List.mem_cons_self _ _) c hc3)
        · right
          simpa using hc4
      · exact ih (fun x hx => h x (List.mem_cons_of_mem _ hx)) c hc2

/-- C2, counterexample.  The claim says that a dot-chain with no class-like
token parses to the whole string as classFqn with no method; the
all-lowercase chain com.foo.bar instead goes through the last-token
heuristic and parses to classFqn com.foo with method bar. -/
theorem c2_counterexample :
    parseDotNotation "com.foo.bar" = ("com.foo", some "bar") ∧
    ¬ (parseDotNotation "com.foo.bar" = ("com.foo.bar", none)) := by
  constructor
  · rfl
  · decide

/-- C2, amended: on a dot-chain of two or more plain ASCII identifier
tokens, the split point is the first token whose first character is an
uppercase ASCII letter (for such tokens the class_token regex agrees with
the first-character test): tokens up to and including it join to classFqn
and the remaining tokens join to the method, absent when none remain.  When
no token starts with an uppercase letter the parser does not return the
whole string: every such identifier last token looks like a method, so the
last token is split off as the method and the rest join to classFqn. -/
theorem c2_dot_chain_split (s : String)
    (hlen : 2 ≤ (splitOnChar '.' s).length)
    (hid : ∀ t ∈ splitOnChar '.' s, plainIdentTok t = true) :
    (∀ i, List.findIdx? headIsUpperA (splitOnChar '.' s) = some i →
      parseDotNotation s =
        (joinDots ((splitOnChar '.' s).take (i + 1)),
         if i + 1 < (splitOnChar '.' s).length then
           some (joinDots ((splitOnChar '.' s).drop (i + 1)))
         else none)) ∧
    (List.findIdx? headIsUpperA (splitOnChar '.' s) = none →
      parseDotNotation s =
        (joinDots (splitOnChar '.' s).dropLast,
         some (((splitOnChar '.' s).getLast?).getD ""))) := by
  have hcong : List.findIdx? looksLikeClass (splitOnChar '.' s)
      = List.findIdx? headIsUpperA (splitOnChar '.' s) :=
    findIdx?_congr (fun t ht => plainIdent_class_eq_headUpper t (hid t ht))
  have hnotlt : ¬ ((splitOnChar '.' s).length < 2) := Nat.not_lt.mpr hlen
  constructor
  · intro i hf
    simp only [parseDotNotation, if_neg hnotlt, hcong, hf]
    by_cases hlt : i + 1 < (splitOnChar '.' s).length
    · rw [if_pos hlt, if_pos hlt]
      rw [cleanMethodName_words _ (joinDots_chars _
        (fun t ht => plainIdent_all_word t
          (hid t (List.drop_subset _ _ ht))))]
    · rw [if_neg hlt, if_neg hlt]
  · intro hf
    have hne : splitOnChar '.' s ≠ [] := by
      intro hnil
      rw [hnil] at hlen
      exact absurd hlen (by decide)
    have hlast_mem : ((splitOnChar '.' s).getLast?).getD ""
        ∈ splitOnChar '.' s := by
      rw [List.getLast?_eq_getLast _ hne]
      exact List.getLast_mem hne
    have hident := hid _ hlast_mem
    have hup : headIsUpperA (((splitOnChar '.' s).getLast?).getD "") = false :=
      List.findIdx?_eq_none_iff.mp hf _ hlast_mem
    simp only [parseDotNotation, if_neg hnotlt, hcong, hf]
    rw [if_pos (plainIdent_lower_method _ hident hup)]
    rw [cleanMethodName_words _
      (fun c hc => Or.inl (plainIdent_all_word _ hident c hc))]

/-- C2, witness for the amended theorem. -/
theorem c2_witness :
    parseDotNotation "com.x.Y.doThing" = ("com.x.Y", some "doThing") := by
  have h := (c2_dot_chain_split "com.x.Y.doThing" (by decide)
    (by decide)).1 2 rfl
  exact h.trans (by decide)




end NpsAnalyzer
